import Mathlib

/-
  Verification of the color value type and colorspace conversion engine
  (src/color.rs of csscolorparser).

  Embedding conventions:
  * Rust `f64` values are modelled as exact rationals (ℚ); the claims
    settled here concern the algebraic structure of the code (which
    fields are stored, clamped or passed through, branch selection,
    modular-arithmetic ranges), none of which depend on rounding of
    individual IEEE operations.
  * Rust's `%` on floats keeps the sign of the dividend (truncated
    division); it is modelled by `rustRem` below.
  * Rust's `f64::round` rounds half away from zero (`rustRound`), and
    `as u8` saturates to [0,255] (`asU8`).
  * The two transcendental primitives used by the sRGB transfer function
    and the Oklab conversion (`powf 2.4` and `cbrt`) are not rational
    functions; the definitions that use them take them as explicit
    function parameters, and every theorem about those definitions is
    proved for all interpretations of the parameters.
-/

/-- Truncation toward zero of a rational, as Rust float-to-int truncation
and the float remainder operator use it. -/
def rustTrunc (q : ℚ) : ℤ :=
  if 0 ≤ q then ⌊q⌋ else ⌈q⌉

/-- Rust's `%` on `f64`: remainder with the sign of the dividend. -/
def rustRem (x n : ℚ) : ℚ :=
  x - n * rustTrunc (x / n)

/-- Rust's `f64::round`: round to nearest integer, ties away from zero. -/
def rustRound (x : ℚ) : ℤ :=
  if 0 ≤ x then ⌊x + 1/2⌋ else ⌈x - 1/2⌉

/-- Rust's `as u8` cast applied to an already-rounded value: saturates
into [0,255]. -/
def asU8 (z : ℤ) : ℕ :=
  (min 255 (max 0 z)).toNat

/-- `fn clamp0_1(t: f64) -> f64 { t.clamp(0., 1.) }` -/
def clamp0_1 (t : ℚ) : ℚ :=
  if t < 0 then 0 else if 1 < t then 1 else t

/-- `fn normalize_angle(t: f64) -> f64` from src/color.rs. -/
def normalize_angle (t : ℚ) : ℚ :=
  if rustRem t 360 < 0 then rustRem t 360 + 360 else rustRem t 360

/-- `fn interp_angle(a0: f64, a1: f64, t: f64) -> f64` from src/color.rs. -/
def interp_angle (a0 a1 t : ℚ) : ℚ :=
  rustRem (a0 + t * (rustRem (rustRem (a1 - a0) 360 + 540) 360 - 180) + 360) 360

/-- `fn modulo(x: f64, n: f64) -> f64 { (x % n + n) % n }` -/
def modulo (x n : ℚ) : ℚ :=
  rustRem (rustRem x n + n) n

/-- `fn hue_to_rgb(n1: f64, n2: f64, h: f64) -> f64` from src/color.rs. -/
def hue_to_rgb (n1 n2 h : ℚ) : ℚ :=
  if modulo h 6 < 1 then n1 + (n2 - n1) * modulo h 6
  else if modulo h 6 < 3 then n2
  else if modulo h 6 < 4 then n1 + (n2 - n1) * (4 - modulo h 6)
  else n1

/-- `fn hsl_to_rgb(h: f64, s: f64, l: f64) -> (f64, f64, f64)` from src/color.rs. -/
def hsl_to_rgb (h s l : ℚ) : ℚ × ℚ × ℚ :=
  if s = 0 then (l, l, l)
  else
    let n2 := if l < 1/2 then l * (1 + s) else l + s - l * s
    let n1 := 2 * l - n2
    (hue_to_rgb n1 n2 (h / 60 + 2), hue_to_rgb n1 n2 (h / 60),
      hue_to_rgb n1 n2 (h / 60 - 2))

/-- `fn hwb_to_rgb(hue: f64, white: f64, black: f64) -> (f64, f64, f64)`
from src/color.rs. -/
def hwb_to_rgb (hue white black : ℚ) : ℚ × ℚ × ℚ :=
  if 1 ≤ white + black then
    (white / (white + black), white / (white + black), white / (white + black))
  else
    ((hsl_to_rgb hue 1 (1/2)).1 * (1 - white - black) + white,
      (hsl_to_rgb hue 1 (1/2)).2.1 * (1 - white - black) + white,
      (hsl_to_rgb hue 1 (1/2)).2.2 * (1 - white - black) + white)

/-- `fn hsv_to_hsl(h: f64, s: f64, v: f64) -> (f64, f64, f64)` from
src/color.rs; the source's `let l` is inlined. -/
def hsv_to_hsl (h s v : ℚ) : ℚ × ℚ × ℚ :=
  (h,
    if (2 - s) * v / 2 ≠ 0 then
      if (2 - s) * v / 2 = 1 then 0
      else if (2 - s) * v / 2 < 1/2 then s * v / ((2 - s) * v / 2 * 2)
      else s * v / (2 - (2 - s) * v / 2 * 2)
    else s,
    (2 - s) * v / 2)

/-- `fn hsv_to_rgb(h: f64, s: f64, v: f64) -> (f64, f64, f64)` from src/color.rs. -/
def hsv_to_rgb (h s v : ℚ) : ℚ × ℚ × ℚ :=
  hsl_to_rgb (hsv_to_hsl h s v).1 (hsv_to_hsl h s v).2.1 (hsv_to_hsl h s v).2.2

/-- `fn rgb_to_hsv(r: f64, g: f64, b: f64) -> (f64, f64, f64)` from src/color.rs. -/
def rgb_to_hsv (r g b : ℚ) : ℚ × ℚ × ℚ :=
  let v := max r (max g b)
  let d := v - min r (min g b)
  if d = 0 then (0, 0, v)
  else
    let h := if r = v then (v - b) / d - (v - g) / d
      else if g = v then 2 + (v - r) / d - (v - b) / d
      else 4 + (v - g) / d - (v - r) / d
    (normalize_angle (rustRem (h * 60) 360), d / v, v)

/-- `fn rgb_to_hsl(r: f64, g: f64, b: f64) -> (f64, f64, f64)` from src/color.rs. -/
def rgb_to_hsl (r g b : ℚ) : ℚ × ℚ × ℚ :=
  let mn := min r (min g b)
  let mx := max r (max g b)
  if mn = mx then (0, 0, (mx + mn) / 2)
  else
    let d := mx - mn
    let s := if (mx + mn) / 2 < 1/2 then d / (mx + mn) else d / (2 - mx - mn)
    let h := if r = mx then (mx - b) / d - (mx - g) / d
      else if g = mx then 2 + (mx - r) / d - (mx - b) / d
      else 4 + (mx - g) / d - (mx - r) / d
    (normalize_angle (rustRem (h * 60) 360), s, (mx + mn) / 2)

/-- `fn rgb_to_hwb(r: f64, g: f64, b: f64) -> (f64, f64, f64)` from src/color.rs. -/
def rgb_to_hwb (r g b : ℚ) : ℚ × ℚ × ℚ :=
  ((rgb_to_hsl r g b).1, min r (min g b), 1 - max r (max g b))

/-- The `Color` struct: four `f64` fields r, g, b, a. -/
structure Color where
  r : ℚ
  g : ℚ
  b : ℚ
  a : ℚ
deriving DecidableEq

/-- `Color::from_rgba`: direct field assignment, no clamping. -/
def Color.from_rgba (r g b a : ℚ) : Color :=
  ⟨r, g, b, a⟩

/-- `Color::rgba`: direct field reads. -/
def Color.rgba (c : Color) : ℚ × ℚ × ℚ × ℚ :=
  (c.r, c.g, c.b, c.a)

/-- `Color::from_hsva` from src/color.rs. -/
def Color.from_hsva (h s v a : ℚ) : Color :=
  Color.from_rgba
    (clamp0_1 (hsv_to_rgb (normalize_angle h) (clamp0_1 s) (clamp0_1 v)).1)
    (clamp0_1 (hsv_to_rgb (normalize_angle h) (clamp0_1 s) (clamp0_1 v)).2.1)
    (clamp0_1 (hsv_to_rgb (normalize_angle h) (clamp0_1 s) (clamp0_1 v)).2.2)
    (clamp0_1 a)

/-- `Color::from_hsla` from src/color.rs. -/
def Color.from_hsla (h s l a : ℚ) : Color :=
  Color.from_rgba
    (clamp0_1 (hsl_to_rgb (normalize_angle h) (clamp0_1 s) (clamp0_1 l)).1)
    (clamp0_1 (hsl_to_rgb (normalize_angle h) (clamp0_1 s) (clamp0_1 l)).2.1)
    (clamp0_1 (hsl_to_rgb (normalize_angle h) (clamp0_1 s) (clamp0_1 l)).2.2)
    (clamp0_1 a)

/-- `Color::from_hwba` from src/color.rs: note the alpha argument is
passed to `from_rgba` without `clamp0_1`. -/
def Color.from_hwba (h w b a : ℚ) : Color :=
  Color.from_rgba
    (clamp0_1 (hwb_to_rgb (normalize_angle h) (clamp0_1 w) (clamp0_1 b)).1)
    (clamp0_1 (hwb_to_rgb (normalize_angle h) (clamp0_1 w) (clamp0_1 b)).2.1)
    (clamp0_1 (hwb_to_rgb (normalize_angle h) (clamp0_1 w) (clamp0_1 b)).2.2)
    a

/-- `Color::rgba_u8`: each field times 255, rounded, cast to `u8`. -/
def Color.rgba_u8 (c : Color) : ℕ × ℕ × ℕ × ℕ :=
  (asU8 (rustRound (c.r * 255)), asU8 (rustRound (c.g * 255)),
    asU8 (rustRound (c.b * 255)), asU8 (rustRound (c.a * 255)))

/-- One lowercase hexadecimal digit, as `format!` with the `x` specifier
emits it. -/
def hexDigit (n : ℕ) : Char :=
  if n < 10 then Char.ofNat (48 + n) else Char.ofNat (87 + n)

/-- `format!("{:02x}", n)` for a `u8` value `n`: exactly two lowercase
hex digits. -/
def hex02 (n : ℕ) : String :=
  String.mk [hexDigit (n / 16 % 16), hexDigit (n % 16)]

/-- `Color::to_hex_string` from src/color.rs. -/
def Color.to_hex_string (c : Color) : String :=
  if c.rgba_u8.2.2.2 < 255 then
    "#" ++ hex02 c.rgba_u8.1 ++ hex02 c.rgba_u8.2.1 ++ hex02 c.rgba_u8.2.2.1
      ++ hex02 c.rgba_u8.2.2.2
  else
    "#" ++ hex02 c.rgba_u8.1 ++ hex02 c.rgba_u8.2.1 ++ hex02 c.rgba_u8.2.2.1

/-- `Color::to_hsva` from src/color.rs. -/
def Color.to_hsva (c : Color) : ℚ × ℚ × ℚ × ℚ :=
  ((rgb_to_hsv c.r c.g c.b).1, (rgb_to_hsv c.r c.g c.b).2.1,
    (rgb_to_hsv c.r c.g c.b).2.2, c.a)

/-- `Color::to_hsla` from src/color.rs. -/
def Color.to_hsla (c : Color) : ℚ × ℚ × ℚ × ℚ :=
  ((rgb_to_hsl c.r c.g c.b).1, (rgb_to_hsl c.r c.g c.b).2.1,
    (rgb_to_hsl c.r c.g c.b).2.2, c.a)

/-- `Color::to_hwba` from src/color.rs. -/
def Color.to_hwba (c : Color) : ℚ × ℚ × ℚ × ℚ :=
  ((rgb_to_hwb c.r c.g c.b).1, (rgb_to_hwb c.r c.g c.b).2.1,
    (rgb_to_hwb c.r c.g c.b).2.2, c.a)

/-- The local `to_linear` helper of `Color::to_linear_rgba`; `pow24 x`
stands for the transcendental `x.powf(2.4)`. -/
def to_linear (pow24 : ℚ → ℚ) (x : ℚ) : ℚ :=
  if 0.04045 ≤ x then pow24 ((x + 0.055) / 1.055) else x / 12.92

/-- `Color::to_linear_rgba` from src/color.rs, parametric in the
`powf(2.4)` primitive. -/
def Color.to_linear_rgba (pow24 : ℚ → ℚ) (c : Color) : ℚ × ℚ × ℚ × ℚ :=
  (to_linear pow24 c.r, to_linear pow24 c.g, to_linear pow24 c.b, c.a)

/-- `Color::to_oklaba` from src/color.rs, parametric in the `powf(2.4)`
and `cbrt` primitives. -/
def Color.to_oklaba (pow24 cbrt : ℚ → ℚ) (c : Color) : ℚ × ℚ × ℚ × ℚ :=
  let lin := Color.to_linear_rgba pow24 c
  let l1 := cbrt (0.4121656120 * lin.1 + 0.5362752080 * lin.2.1
    + 0.0514575653 * lin.2.2.1)
  let m1 := cbrt (0.2118591070 * lin.1 + 0.6807189584 * lin.2.1
    + 0.1074065790 * lin.2.2.1)
  let s1 := cbrt (0.0883097947 * lin.1 + 0.2818474174 * lin.2.1
    + 0.6302613616 * lin.2.2.1)
  (0.2104542553 * l1 + 0.7936177850 * m1 - 0.0040720468 * s1,
    1.9779984951 * l1 - 2.4285922050 * m1 + 0.4505937099 * s1,
    0.0259040371 * l1 + 0.7827717662 * m1 - 0.8086757660 * s1,
    c.a)

/-- `Color::interpolate_rgb` from src/color.rs. -/
def Color.interpolate_rgb (c other : Color) (t : ℚ) : Color :=
  ⟨c.r + t * (other.r - c.r), c.g + t * (other.g - c.g),
    c.b + t * (other.b - c.b), c.a + t * (other.a - c.a)⟩

/-! ### Helper lemmas about the embedded primitives -/

theorem rustTrunc_of_nonneg (q : ℚ) (h : 0 ≤ q) : rustTrunc q = ⌊q⌋ :=
  if_pos h

theorem sub_rustTrunc_bounds (q : ℚ) :
    q - rustTrunc q < 1 ∧ -1 < q - rustTrunc q := by
  unfold rustTrunc
  by_cases h : 0 ≤ q
  · rw [if_pos h]
    have h1 : ((⌊q⌋ : ℤ) : ℚ) ≤ q := Int.floor_le q
    have h2 : q < ⌊q⌋ + 1 := Int.lt_floor_add_one q
    constructor <;> linarith
  · rw [if_neg h]
    have h1 : q ≤ ((⌈q⌉ : ℤ) : ℚ) := Int.le_ceil q
    have h2 : ((⌈q⌉ : ℤ) : ℚ) < q + 1 := Int.ceil_lt_add_one q
    constructor <;> linarith

theorem rustRem_eq_mul_sub (x n : ℚ) (hn : n ≠ 0) :
    rustRem x n = n * (x / n - rustTrunc (x / n)) := by
  unfold rustRem
  field_simp

theorem rustRem_bounds (x n : ℚ) (hn : 0 < n) :
    -n < rustRem x n ∧ rustRem x n < n := by
  have h := sub_rustTrunc_bounds (x / n)
  rw [rustRem_eq_mul_sub x n hn.ne']
  constructor
  · nlinarith [h.1, h.2]
  · nlinarith [h.1, h.2]

theorem rustRem_eq_mul_fract (x n : ℚ) (hn : 0 < n) (hx : 0 ≤ x) :
    rustRem x n = n * Int.fract (x / n) := by
  have hq : 0 ≤ x / n := div_nonneg hx hn.le
  rw [rustRem_eq_mul_sub x n hn.ne', rustTrunc_of_nonneg _ hq, Int.self_sub_floor]

theorem rustRem_mem_Ico (x n : ℚ) (hn : 0 < n) (hx : 0 ≤ x) :
    0 ≤ rustRem x n ∧ rustRem x n < n := by
  rw [rustRem_eq_mul_fract x n hn hx]
  refine ⟨mul_nonneg hn.le (Int.fract_nonneg _), ?_⟩
  nlinarith [Int.fract_lt_one (x / n)]

theorem rustRem_cases (x n : ℚ) (hn : 0 < n) :
    (0 ≤ rustRem x n ∧ rustRem x n = n * Int.fract (x / n)) ∨
    (rustRem x n < 0 ∧ rustRem x n = n * Int.fract (x / n) - n) := by
  by_cases hq : 0 ≤ x / n
  · left
    have hx : 0 ≤ x := by
      by_contra hneg
      push_neg at hneg
      have : x / n < 0 := div_neg_of_neg_of_pos hneg hn
      linarith
    exact ⟨(rustRem_mem_Ico x n hn hx).1, rustRem_eq_mul_fract x n hn hx⟩
  · have hfr : Int.fract (x / n) = x / n - ⌊x / n⌋ := (Int.self_sub_floor _).symm
    by_cases hf : Int.fract (x / n) = 0
    · left
      have hfloor : ((⌊x / n⌋ : ℤ) : ℚ) = x / n := by
        rw [hfr] at hf
        linarith
      have hceil : (⌈x / n⌉ : ℤ) = ⌊x / n⌋ := by
        rw [← hfloor, Int.ceil_intCast, Int.floor_intCast]
      have heq : rustRem x n = n * Int.fract (x / n) := by
        rw [rustRem_eq_mul_sub x n hn.ne']
        unfold rustTrunc
        rw [if_neg hq, hceil, Int.self_sub_floor]
      rw [heq, hf]
      simp
    · right
      have hfpos : 0 < Int.fract (x / n) :=
        lt_of_le_of_ne (Int.fract_nonneg _) (Ne.symm hf)
      have hfl : ((⌊x / n⌋ : ℤ) : ℚ) < x / n := by
        rw [hfr] at hfpos
        linarith
      have hceil : (⌈x / n⌉ : ℤ) = ⌊x / n⌋ + 1 := by
        have h1 : ⌈x / n⌉ ≤ ⌊x / n⌋ + 1 := by
          apply Int.ceil_le.mpr
          push_cast
          exact (Int.lt_floor_add_one (x / n)).le
        have h2 : ⌊x / n⌋ < ⌈x / n⌉ := by
          have hc := Int.le_ceil (x / n)
          exact_mod_cast lt_of_lt_of_le hfl hc
        omega
      have heq : rustRem x n = n * Int.fract (x / n) - n := by
        rw [rustRem_eq_mul_sub x n hn.ne']
        unfold rustTrunc
        rw [if_neg hq, hceil, hfr]
        push_cast
        ring
      refine ⟨?_, heq⟩
      rw [heq]
      have := Int.fract_lt_one (x / n)
      nlinarith

theorem normalize_angle_eq (t : ℚ) :
    normalize_angle t = 360 * Int.fract (t / 360) := by
  have hf0 : 0 ≤ Int.fract (t / 360) := Int.fract_nonneg _
  have hf1 : Int.fract (t / 360) < 1 := Int.fract_lt_one _
  unfold normalize_angle
  rcases rustRem_cases t 360 (by norm_num) with ⟨h1, h2⟩ | ⟨h1, h2⟩
  · rw [if_neg (not_lt.mpr h1), h2]
  · rw [if_pos h1, h2]
    ring

theorem clamp0_1_mem (t : ℚ) : 0 ≤ clamp0_1 t ∧ clamp0_1 t ≤ 1 := by
  unfold clamp0_1
  split_ifs with h1 h2
  · norm_num
  · norm_num
  · push_neg at h1 h2
    exact ⟨h1, h2⟩

theorem clamp0_1_of_mem (t : ℚ) (h0 : 0 ≤ t) (h1 : t ≤ 1) : clamp0_1 t = t := by
  unfold clamp0_1
  rw [if_neg (not_lt.mpr h0), if_neg (not_lt.mpr h1)]

theorem clamp0_1_idem (t : ℚ) : clamp0_1 (clamp0_1 t) = clamp0_1 t :=
  clamp0_1_of_mem _ (clamp0_1_mem t).1 (clamp0_1_mem t).2

theorem normalize_angle_idem (t : ℚ) :
    normalize_angle (normalize_angle t) = normalize_angle t := by
  rw [normalize_angle_eq t, normalize_angle_eq]
  rw [mul_div_cancel_left₀ _ (by norm_num : (360:ℚ) ≠ 0), Int.fract_fract]

/-! ### Claim theorems -/

/-- C5: for every rational h, `normalize_angle h` lies in [0,360), and
`normalize_angle` is periodic with period 360: adding any integer
multiple of 360 to the argument leaves the result unchanged. -/
theorem normalize_angle_range_and_periodic :
    (∀ h : ℚ, 0 ≤ normalize_angle h ∧ normalize_angle h < 360) ∧
    (∀ (h : ℚ) (k : ℤ), normalize_angle (h + 360 * k) = normalize_angle h) := by
  constructor
  · intro h
    rw [normalize_angle_eq]
    refine ⟨mul_nonneg (by norm_num) (Int.fract_nonneg _), ?_⟩
    nlinarith [Int.fract_lt_one (h / 360)]
  · intro h k
    rw [normalize_angle_eq, normalize_angle_eq]
    have harg : (h + 360 * (k : ℚ)) / 360 = h / 360 + (k : ℚ) := by
      field_simp
      ring
    rw [harg, Int.fract_add_int]

/-- C4 counterexample: the claim asserts the result of `interp_angle` is
always in [0,360) even for t outside [0,1]; but Rust's `%` keeps the sign
of its dividend, so at (h1, h2, t) = (0, 90, -10) the dividend
h1 + t*delta + 360 = -540 is negative and the result is -180 ∉ [0,360). -/
theorem interp_angle_escapes_range :
    interp_angle 0 90 (-10) = -180 ∧ ¬ 0 ≤ interp_angle 0 90 (-10) := by
  constructor
  · norm_num [interp_angle, rustRem, rustTrunc, Int.ceil_neg]
  · norm_num [interp_angle, rustRem, rustTrunc, Int.ceil_neg]

/-- C4 (amended): `interp_angle(h1, h2, t)` computes
delta = (((h2-h1) % 360) + 540) % 360 - 180 and returns
(h1 + t*delta + 360) % 360 with `%` the sign-preserving Rust remainder;
the result lies in [0,360) whenever h1 ∈ [0,360) and t ∈ [0,1] (as its
caller interpolate_hsv supplies them), not for arbitrary t. -/
theorem interp_angle_range (a0 a1 t : ℚ) (h0 : 0 ≤ a0) (h1 : a0 < 360)
    (ht0 : 0 ≤ t) (ht1 : t ≤ 1) :
    0 ≤ interp_angle a0 a1 t ∧ interp_angle a0 a1 t < 360 := by
  have hb := rustRem_bounds (a1 - a0) 360 (by norm_num)
  have hpos : (0:ℚ) ≤ rustRem (a1 - a0) 360 + 540 := by linarith [hb.1]
  have hmid := rustRem_mem_Ico (rustRem (a1 - a0) 360 + 540) 360 (by norm_num) hpos
  have htd : -180 ≤ t * (rustRem (rustRem (a1 - a0) 360 + 540) 360 - 180) := by
    nlinarith [mul_nonneg ht0 hmid.1]
  have hargpos :
      (0:ℚ) ≤ a0 + t * (rustRem (rustRem (a1 - a0) 360 + 540) 360 - 180) + 360 := by
    linarith
  unfold interp_angle
  exact rustRem_mem_Ico _ 360 (by norm_num) hargpos

/-- Witness for the amended C4 theorem at (h1, h2, t) = (0, 90, 1/2). -/
theorem interp_angle_range_witness :
    0 ≤ interp_angle 0 90 (1/2) ∧ interp_angle 0 90 (1/2) < 360 :=
  interp_angle_range 0 90 (1/2) (by norm_num) (by norm_num) (by norm_num)
    (by norm_num)

/-- C6: `interp_angle` takes the shorter arc from 360 to 90: the values at
t = 0, 0.5 and 1 are 0, 45 and 90. -/
theorem interp_angle_shortest_arc :
    interp_angle 360 90 0 = 0 ∧ interp_angle 360 90 0.5 = 45 ∧
      interp_angle 360 90 1 = 90 := by
  refine ⟨?_, ?_, ?_⟩ <;>
    norm_num [interp_angle, rustRem, rustTrunc, Int.ceil_neg]

/-- C1: `from_rgba` stores its four arguments unmodified and `rgba` reads
them back unmodified — the round trip is the identity, with no clamping
or transformation (hence in particular for arguments in [0,1]). -/
theorem from_rgba_rgba_roundtrip (r g b a : ℚ) :
    (Color.from_rgba r g b a).rgba = (r, g, b, a) :=
  rfl

/-- C2: `from_hwba` stores the alpha argument unclamped, normalizes the
hue and clamps whiteness/blackness on input (re-normalizing and
re-clamping them changes nothing), and clamps the resulting r, g, b
fields into [0,1]; `from_hsva` and `from_hsla` clamp alpha instead, and
an out-of-range alpha such as 2 is stored as-is by `from_hwba`. -/
theorem from_hwba_alpha_unclamped :
    (∀ h w b a : ℚ, (Color.from_hwba h w b a).a = a) ∧
    (∀ h w b a : ℚ,
      (0 ≤ (Color.from_hwba h w b a).r ∧ (Color.from_hwba h w b a).r ≤ 1) ∧
      (0 ≤ (Color.from_hwba h w b a).g ∧ (Color.from_hwba h w b a).g ≤ 1) ∧
      (0 ≤ (Color.from_hwba h w b a).b ∧ (Color.from_hwba h w b a).b ≤ 1)) ∧
    (∀ h w b a : ℚ,
      Color.from_hwba h w b a
        = Color.from_hwba (normalize_angle h) (clamp0_1 w) (clamp0_1 b) a) ∧
    (∀ h s v a : ℚ, (Color.from_hsva h s v a).a = clamp0_1 a) ∧
    (∀ h s l a : ℚ, (Color.from_hsla h s l a).a = clamp0_1 a) ∧
    (Color.from_hwba 0 0 0 2).a = 2 := by
  refine ⟨fun h w b a => rfl, ?_, ?_, fun h s v a => rfl, fun h s l a => rfl, rfl⟩
  · intro h w b a
    exact ⟨clamp0_1_mem _, clamp0_1_mem _, clamp0_1_mem _⟩
  · intro h w b a
    unfold Color.from_hwba
    rw [normalize_angle_idem, clamp0_1_idem, clamp0_1_idem]

/-- C3 counterexample: at (h, s, v) = (0, 1, 0) the lightness
l = (2-s)*v/2 equals 0, yet `hsv_to_hsl` returns the ORIGINAL saturation
1 as its second component — not 0 as the claim states for the l == 0
case (the claim has the l == 0 and l == 1 special cases swapped). -/
theorem hsv_to_hsl_l_zero_returns_s :
    ((2 - 1) * 0 / 2 : ℚ) = 0 ∧ hsv_to_hsl 0 1 0 = (0, 1, 0) ∧ (1 : ℚ) ≠ 0 := by
  refine ⟨by norm_num, ?_, by norm_num⟩
  norm_num [hsv_to_hsl]

/-- C3 (amended): with l = (2-s)*v/2, `hsv_to_hsl h s v` returns hue h
unchanged and lightness l; the returned saturation is the ORIGINAL s when
l == 0, is 0 when l == 1, and for l strictly between 0 and 1 is
s*v/(l*2) if l < 0.5 and s*v/(2-2l) otherwise. -/
theorem hsv_to_hsl_branching (h s v : ℚ) :
    ((2 - s) * v / 2 = 0 → hsv_to_hsl h s v = (h, s, 0)) ∧
    ((2 - s) * v / 2 = 1 → hsv_to_hsl h s v = (h, 0, 1)) ∧
    (0 < (2 - s) * v / 2 → (2 - s) * v / 2 < 1 →
      hsv_to_hsl h s v = (h,
        if (2 - s) * v / 2 < 1/2 then s * v / ((2 - s) * v / 2 * 2)
        else s * v / (2 - (2 - s) * v / 2 * 2),
        (2 - s) * v / 2)) := by
  refine ⟨?_, ?_, ?_⟩
  · intro hl
    unfold hsv_to_hsl
    rw [if_neg (not_not.mpr hl), hl]
  · intro hl
    unfold hsv_to_hsl
    have hne : (2 - s) * v / 2 ≠ 0 := by
      rw [hl]
      norm_num
    rw [if_pos hne, if_pos hl, hl]
  · intro hl0 hl1
    unfold hsv_to_hsl
    rw [if_pos (ne_of_gt hl0), if_neg (ne_of_lt hl1)]

/-- Witness for the amended C3 theorem at (h, s, v) = (0, 1, 1), where
l = 1/2 and the l ≥ 0.5 branch applies: s*v/(2-2l) = 1. -/
theorem hsv_to_hsl_branching_witness : hsv_to_hsl 0 1 1 = (0, 1, 1/2) := by
  have h := (hsv_to_hsl_branching 0 1 1).2.2 (by norm_num) (by norm_num)
  norm_num at h ⊢
  exact h

/-- C7: the achromatic singularities resolve the undefined hue to 0:
when max(r,g,b) = min(r,g,b), `rgb_to_hsv` returns (0, 0, v) with
v = max(r,g,b) and `rgb_to_hsl` returns (0, 0, l) with
l = (max+min)/2; and when w + b ≥ 1, `hwb_to_rgb` returns the gray with
all three channels equal to w/(w+b). -/
theorem achromatic_hue_zero :
    (∀ r g b : ℚ, max r (max g b) = min r (min g b) →
      rgb_to_hsv r g b = (0, 0, max r (max g b))) ∧
    (∀ r g b : ℚ, max r (max g b) = min r (min g b) →
      rgb_to_hsl r g b = (0, 0, (max r (max g b) + min r (min g b)) / 2)) ∧
    (∀ h w b : ℚ, 1 ≤ w + b →
      hwb_to_rgb h w b = (w / (w + b), w / (w + b), w / (w + b))) := by
  refine ⟨?_, ?_, ?_⟩
  · intro r g b hmm
    simp only [rgb_to_hsv]
    rw [if_pos (sub_eq_zero_of_eq hmm)]
  · intro r g b hmm
    simp only [rgb_to_hsl]
    rw [if_pos hmm.symm]
  · intro h w b hwb
    simp only [hwb_to_rgb]
    rw [if_pos hwb]

/-- Witness for C7 at the gray (1/2, 1/2, 1/2) and at (h, w, b) =
(0, 3/4, 3/4). -/
theorem achromatic_hue_zero_witness :
    rgb_to_hsv (1/2) (1/2) (1/2) = (0, 0, 1/2) ∧
    rgb_to_hsl (1/2) (1/2) (1/2) = (0, 0, 1/2) ∧
    hwb_to_rgb 0 (3/4) (3/4) = (1/2, 1/2, 1/2) := by
  have h1 := achromatic_hue_zero.1 (1/2) (1/2) (1/2) (by norm_num)
  have h2 := achromatic_hue_zero.2.1 (1/2) (1/2) (1/2) (by norm_num)
  have h3 := achromatic_hue_zero.2.2 0 (3/4) (3/4) (by norm_num)
  norm_num at h1 h2 h3
  exact ⟨h1, h2, h3⟩

/-- The claim's byte conversion, in its own words: multiply the fraction
by 255 and round to the nearest integer with ties away from zero (then
the value is a byte, i.e. saturated into 0..255 by the `as u8` cast). -/
def specByte (x : ℚ) : ℕ :=
  asU8 (rustRound (x * 255))

/-- C8: `to_hex_string` converts each of r, g, b, a to a byte by
multiplying by 255 and rounding ties-away-from-zero; if the alpha byte is
below 255 it emits the 8-digit lowercase form, else the 6-digit form; and
`from_rgba(1, 1, 0.5, 0.5)` serializes to "#ffff8080". -/
theorem to_hex_string_spec :
    (∀ c : Color,
      Color.to_hex_string c =
        if specByte c.a < 255 then
          "#" ++ hex02 (specByte c.r) ++ hex02 (specByte c.g)
            ++ hex02 (specByte c.b) ++ hex02 (specByte c.a)
        else
          "#" ++ hex02 (specByte c.r) ++ hex02 (specByte c.g)
            ++ hex02 (specByte c.b)) ∧
    Color.to_hex_string (Color.from_rgba 1 1 (1/2) (1/2)) = "#ffff8080" := by
  refine ⟨fun c => rfl, ?_⟩
  have hbytes : (Color.from_rgba 1 1 (1/2) (1/2)).rgba_u8 = (255, 255, 128, 128) := by
    norm_num [Color.rgba_u8, Color.from_rgba, asU8, rustRound, min_def, max_def]
    omega
  unfold Color.to_hex_string
  rw [hbytes]
  norm_num [hex02, hexDigit]
  rfl

/-- C9: every reverse accessor (`to_hsva`, `to_hsla`, `to_hwba`,
`to_linear_rgba`, `to_oklaba`) returns the color's alpha field unchanged
as the fourth tuple component, for every interpretation of the
transcendental `powf(2.4)` and `cbrt` primitives. -/
theorem to_conversions_alpha_passthrough (pow24 cbrt : ℚ → ℚ) (c : Color) :
    (Color.to_hsva c).2.2.2 = c.a ∧ (Color.to_hsla c).2.2.2 = c.a ∧
    (Color.to_hwba c).2.2.2 = c.a ∧
    (Color.to_linear_rgba pow24 c).2.2.2 = c.a ∧
    (Color.to_oklaba pow24 cbrt c).2.2.2 = c.a :=
  ⟨rfl, rfl, rfl, rfl, rfl⟩

/-- C10: `interpolate_rgb` at t = 0 returns the first color exactly, in
all four fields: each field is x1 + t*(x2 - x1), which at t = 0 is x1
(in the exact-arithmetic model every value is finite). -/
theorem interpolate_rgb_at_zero (c1 c2 : Color) :
    Color.interpolate_rgb c1 c2 0 = c1 := by
  unfold Color.interpolate_rgb
  cases c1
  simp
